import Mathlib

set_option maxRecDepth 8000

-- Batteries marks the arithmetic of `Rat` irreducible; concrete runs of the
-- embedded functions are checked by `decide`, which needs these to unfold.
set_option allowUnsafeReducibility true in
attribute [semireducible] Rat.mul Rat.add Rat.sub Rat.inv Rat.ofScientific

deriving instance DecidableEq for Except

/-! Shallow embedding of the symptom-matching core of the backend
(`backend/app`): the tokenizer/normalizer of
`services/semantic_service.py`, the vector cosine of
`services/embedding_service.py`, the lexical/semantic blend of
`utils/similarity_utils.py`, and the matcher loop of
`api/researcher.py`.

Modelling conventions:
- Python strings are `List Char` (`Str`); inputs of interest are ASCII,
  and `Char.toLower` agrees with Python `str.lower` on ASCII.
- Python floats are modelled as `ℚ`.
- The optional external backends (rapidfuzz's `QRatio`, the
  sentence-transformers model, Python's salted string `hash` inside the
  hashed-bag-of-words fallback, `math.sqrt`) are opaque oracle
  parameters: the functions under study are parameterised over them,
  exactly where the source calls out to them.
- The optional WordNet branch of `normalize_and_expand` (guarded by
  `HAVE_WN`) is modelled in its absent configuration, which the spec
  declares skippable.
-/

/-- Python strings, as lists of characters. -/
abbrev Str := List Char

/-- Lift a Lean string literal into the `List Char` representation. -/
def str (s : String) : Str := s.data

/-- The whitespace class of Python `str.split()` / `str.strip()` and of
`\s` in the source's regexes (ASCII part): space, tab, LF, CR, FF, VT. -/
def isWs (c : Char) : Bool :=
  c == ' ' || c == '\t' || c == '\n' || c == '\r' || c == '\x0c' || c == '\x0b'

/-- Python's substring test `pat in s`. -/
def containsSub (pat : Str) : Str → Bool
  | [] => pat.isEmpty
  | c :: rest => pat.isPrefixOf (c :: rest) || containsSub pat rest

/-- Recursion core of `replaceAll`; the fuel argument (instantiated to
the string length) makes the recursion structural so that the kernel
can evaluate it. -/
def replaceAllF (pat repl : Str) : Nat → Str → Str
  | 0, s => s
  | _ + 1, [] => []
  | fuel + 1, c :: rest =>
    if pat ≠ [] ∧ pat.isPrefixOf (c :: rest) then
      repl ++ replaceAllF pat repl fuel (rest.drop (pat.length - 1))
    else
      c :: replaceAllF pat repl fuel rest

/-- Python `s.replace(pat, repl)`: replace every non-overlapping
occurrence, scanning left to right (never called with an empty `pat`
in the source; on empty `pat` this model is the identity). -/
def replaceAll (pat repl s : Str) : Str := replaceAllF pat repl s.length s

/-- Recursion core of `splitWs`, fuelled for the same reason. -/
def splitWsF : Nat → Str → List Str
  | 0, _ => []
  | _ + 1, [] => []
  | fuel + 1, c :: rest =>
    if isWs c then splitWsF fuel rest
    else
      (c :: rest.takeWhile (fun d => !(isWs d))) ::
        splitWsF fuel (rest.dropWhile (fun d => !(isWs d)))

/-- Python `s.split()`: split on runs of whitespace, dropping empty
pieces. -/
def splitWs (s : Str) : List Str := splitWsF s.length s

/-- `sep.join(ws)` for a list of words. -/
def joinWith (sep : Str) : List Str → Str
  | [] => []
  | [w] => w
  | w :: ws => w ++ sep ++ joinWith sep ws

/-- Python `str.lower` restricted to its ASCII behaviour. -/
def lowerStr (s : Str) : Str := s.map Char.toLower

/-- Python `str.strip()`: drop leading and trailing whitespace. -/
def stripStr (s : Str) : Str :=
  ((s.dropWhile fun c => isWs c).reverse.dropWhile fun c => isWs c).reverse

/-- `p.replace(" ", "_")` as used on preserved phrases and synonym
keys. -/
def underscored (p : Str) : Str := p.map fun c => if c = ' ' then '_' else c

/-! `services/semantic_service.py` -/

/-- `_SUFFIX_RULES` of semantic_service.py, in source order. -/
def _SUFFIX_RULES : List (Str × Str) :=
  [(str "ing", str ""), (str "ies", str "y"), (str "ed", str ""), (str "s", str "")]

/-- One `re.sub(r"suffix$", repl, t)` step of `lemmatize_token`: the
end-anchored pattern matches at most once, so it strips the suffix at
most once, never recursively. -/
def applySuffixRule (t : Str) (rule : Str × Str) : Str :=
  if rule.1.isSuffixOf t then t.take (t.length - rule.1.length) ++ rule.2 else t

/-- `lemmatize_token` of semantic_service.py: the loop folds every rule
over the token, each rule acting on the output of the previous one. -/
def lemmatize_token (tok : Str) : Str := _SUFFIX_RULES.foldl applySuffixRule tok

/-- `_SYNONYMS` of semantic_service.py, in dict-literal (insertion)
order. -/
def _SYNONYMS : List (Str × Str) :=
  [ (str "tired", str "fatigue"),
    (str "tiredness", str "fatigue"),
    (str "exhausted", str "fatigue"),
    (str "exhaustion", str "fatigue"),
    (str "sleepy", str "somnolence"),
    (str "sleepiness", str "somnolence"),
    (str "lack of sleep", str "sleep deprivation"),
    (str "no sleep", str "sleep deprivation"),
    (str "insomnia", str "sleep deprivation"),
    (str "memory issues", str "memory impairment"),
    (str "forgetting", str "memory impairment"),
    (str "forgetfulness", str "memory impairment"),
    (str "can't focus", str "inattention"),
    (str "cannot focus", str "inattention"),
    (str "unmotivated", str "low motivation"),
    (str "no motivation", str "low motivation"),
    (str "poor mood", str "low mood"),
    (str "sad", str "low mood"),
    (str "palpitations", str "irregular heartbeat"),
    (str "skipping beats", str "irregular heartbeat"),
    (str "heart skipping", str "irregular heartbeat"),
    (str "dizzy", str "dizziness"),
    (str "lightheaded", str "dizziness"),
    (str "standing up", str "postural change"),
    (str "stand up", str "postural change"),
    (str "itchiness", str "pruritus"),
    (str "itchy", str "pruritus"),
    (str "hives", str "urticaria"),
    (str "skin rash", str "dermatitis"),
    (str "rash", str "dermatitis") ]

/-- `_PHRASES` of semantic_service.py. -/
def _PHRASES : List Str :=
  [ str "shortness of breath",
    str "chest tightness",
    str "runny nose",
    str "nasal congestion",
    str "sore throat",
    str "muscle aches",
    str "muscle pain",
    str "loss of smell",
    str "frequent urination",
    str "high blood sugar",
    str "slurred speech",
    str "skin rash",
    str "contact dermatitis",
    str "atopic dermatitis",
    str "urticaria" ]

/-- `_STOP` of semantic_service.py (the module-level stopword set; the
set literal in `api/researcher.py` named `STOP` is the identical
collection). -/
def _STOP : List Str :=
  [ str "the", str "and", str "or", str "with", str "of", str "to", str "in",
    str "for", str "on", str "a", str "an", str "is", str "are", str "was",
    str "were", str "it", str "its", str "at", str "by", str "what",
    str "this", str "that", str "these", str "those", str "from", str "as",
    str "than", str "then", str "be", str "been", str "being", str "can",
    str "may", str "might", str "will", str "would", str "should",
    str "could", str "i", str "am", str "not", str "feeling", str "due",
    str "because", str "have", str "has", str "had", str "very",
    str "severe", str "mild", str "moderate", str "like" ]

/-- The character class kept by `re.sub(r"[^a-z0-9_\s]", " ", t)`. -/
def keepChar (c : Char) : Bool :=
  decide (('a' ≤ c ∧ c ≤ 'z') ∨ ('0' ≤ c ∧ c ≤ '9') ∨ c = '_') || isWs c

/-- The `re.sub(r"[^a-z0-9_\s]", " ", t)` pass: every character outside
the class becomes a space. -/
def stripNonAlnum (s : Str) : Str := s.map fun c => if keepChar c then c else ' '

/-- The phrase-preserving pass of `normalize_and_expand`: each known
multi-word phrase is rewritten to its underscored form. -/
def phrasePass (t : Str) : Str :=
  _PHRASES.foldl (fun t p => replaceAll p (underscored p) t) t

/-- The tokens of `normalize_and_expand` before synonym expansion:
whitespace split, empties and stopwords dropped. -/
def rawTokens (t : Str) : List Str :=
  (splitWs t).filter fun w => !(_STOP.contains w)

/-- The phrase-level synonym loop of `normalize_and_expand`: for each
(key, value) pair in dict order, the underscored key is replaced by the
underscored value when present, otherwise the plain key by the plain
value when present. -/
def synonymPass (j : Str) : Str :=
  _SYNONYMS.foldl
    (fun j kv =>
      if containsSub (underscored kv.1) j then
        replaceAll (underscored kv.1) (underscored kv.2) j
      else if containsSub kv.1 j then
        replaceAll kv.1 kv.2 j
      else j)
    j

/-- The token pipeline of `normalize_and_expand`: lowercase, preserve
phrases, strip punctuation, split and drop stopwords, re-join, expand
synonyms, re-split and lemmatize. -/
def normTokens (text : Str) : List Str :=
  (splitWs (synonymPass (joinWith (str " ")
      (rawTokens (stripNonAlnum (phrasePass (lowerStr text))))))).map lemmatize_token

/-- `normalize_and_expand` of semantic_service.py, in its configuration
without the optional WordNet expansion (`HAVE_WN = False`), which the
spec declares skippable. Returns (normalized text, token list); the
normalized text turns underscores back into spaces while tokens stay
underscored. -/
def normalize_and_expand (text : Str) : Str × List Str :=
  let toks := normTokens text
  let norm_text := (joinWith (str " ") toks).map fun c => if c = '_' then ' ' else c
  (norm_text, toks)

/-! `services/embedding_service.py` -/

/-- Python's float `x or 1.0` guard: `0.0` is the only falsy float, so
a zero value is replaced by `1.0`. -/
def pyGuard1 (x : ℚ) : ℚ := if x = 0 then 1 else x

/-- `cosine` of embedding_service.py, parameterised over `math.sqrt`
(an opaque real-valued routine, modelled as an oracle on ℚ): dot
product and both norms are computed over the shared prefix of length
`min (len a) (len b)`; `n = 0` short-circuits to `0.0`; each norm is
guarded against zero by `or 1.0`. -/
def cosine (sqrtQ : ℚ → ℚ) (a b : List ℚ) : ℚ :=
  let n := min a.length b.length
  if n = 0 then 0
  else
    let dot := (List.zipWith (· * ·) (a.take n) (b.take n)).sum
    let na := pyGuard1 (sqrtQ ((a.take n).map fun x => x * x).sum)
    let nb := pyGuard1 (sqrtQ ((b.take n).map fun x => x * x).sum)
    dot / (na * nb)

/-- Modelled from the spec (§4.2, `cosine`): "dot product over the
shared prefix length `min(len(a), len(b))`, divided by the product of
each vector's own norm (computed over that same shared prefix),
guarding both norms against zero by substituting 1. Returns 0.0 if
either vector is empty." Stated for comparison with the source's
`cosine`. -/
def cosineSpecSide (sqrtQ : ℚ → ℚ) (a b : List ℚ) : ℚ :=
  if a = [] ∨ b = [] then 0
  else
    let n := min a.length b.length
    let dot := (List.zipWith (· * ·) (a.take n) (b.take n)).sum
    let normA := sqrtQ ((a.take n).map fun x => x * x).sum
    let normB := sqrtQ ((b.take n).map fun x => x * x).sum
    dot / ((if normA = 0 then 1 else normA) * (if normB = 0 then 1 else normB))

/-! `utils/similarity_utils.py`

The two optional backends are capability flags plus oracles:
`haveST` / `emb` stand for the sentence-transformers model behind
`cached_embedding` (the read-through cache is semantically transparent,
so `emb` maps a text directly to its embedding), and `haveFuzz` /
`qratio` stand for rapidfuzz's `fuzz.QRatio` scorer
(`process.extractOne(a, [b], scorer=fuzz.QRatio)[1]` is exactly
`QRatio a b`, a score on the 0–100 scale). -/

/-- `semantic_similarity` of similarity_utils.py: `0.0` without the
model; otherwise the dot product of the two cached embeddings, with
`0.0` for mismatched or zero lengths. -/
def semantic_similarity (haveST : Bool) (emb : Str → List ℚ) (a b : Str) : ℚ :=
  if ¬ haveST then 0
  else
    let va := emb a
    let vb := emb b
    if va.length ≠ vb.length ∨ va.length = 0 then 0
    else (List.zipWith (· * ·) va vb).sum

/-- `fuzzy_similarity` of similarity_utils.py: rapidfuzz `QRatio / 100`
when available, else exact-match 1.0/0.0. -/
def fuzzy_similarity (haveFuzz : Bool) (qratio : Str → Str → ℚ) (a b : Str) : ℚ :=
  if haveFuzz then qratio a b / 100
  else if a = b then 1 else 0

/-- `hybrid_similarity` of similarity_utils.py: the weighted blend
`w_fuzzy * fuzzy + w_sem * semantic`, with no clamping of either
component. -/
def hybrid_similarity (haveFuzz : Bool) (qratio : Str → Str → ℚ)
    (haveST : Bool) (emb : Str → List ℚ) (a b : Str) (w_fuzzy w_sem : ℚ) : ℚ :=
  w_fuzzy * fuzzy_similarity haveFuzz qratio a b +
    w_sem * semantic_similarity haveST emb a b

/-- `best_match` of similarity_utils.py: linear scan starting from the
sentinel `("", -1.0)`, updating on strictly greater scores. -/
def best_match (haveFuzz : Bool) (qratio : Str → Str → ℚ)
    (haveST : Bool) (emb : Str → List ℚ)
    (candidate : Str) (vocabulary : List Str) (w_fuzzy w_sem : ℚ) : Str × ℚ :=
  vocabulary.foldl
    (fun acc term =>
      let score := hybrid_similarity haveFuzz qratio haveST emb candidate term w_fuzzy w_sem
      if score > acc.2 then (term, score) else acc)
    (str "", -1)

/-! `api/researcher.py`, `researcher_search`

The per-record semantic score `cosine(q_vec, _EMB.get(did, []))`
depends on `embed_text`, whose hashed-bag-of-words fallback uses
Python's salted `hash` and whose primary path is an external model;
following the oracle convention it is a parameter
`sem : Str → ℚ` mapping a `disease_id` to that cosine value (a missing
`_EMB` key yields the empty vector, hence cosine `0.0`, absorbed by the
oracle).

Record fields not consumed by the matching logic itself
(`existing_drugs`, forwarded verbatim into each result) and result
fields outside the match list (`query_id`, a fresh UUID;
`query_embedding`; `hypotheses`; `explanation`; the best-effort JSONL
logging) are omitted from the model. -/

/-- One knowledge-base record of the researcher demo DB. -/
structure DiseaseRec where
  disease_id : Str
  disease_name : Str
  symptoms_text : Str
  notes : Str
deriving DecidableEq

/-- One element of the `matches` list built by `researcher_search`. -/
structure MatchEntry where
  disease_id : Str
  disease_name : Str
  match_score : ℚ
  matched_symptom_snippet : Str
  notes : Str
deriving DecidableEq

/-- `_normalize_text` of researcher.py: the normalized-text component
of `normalize_and_expand`. -/
def _normalize_text (t : Str) : Str := (normalize_and_expand t).1

/-- `round(float(score), 4)`. Python rounds half to even on binary
floats; no claim depends on behaviour at exact ties, so half-up on ℚ
is used. -/
def round4 (x : ℚ) : ℚ := (Rat.floor (x * 10000 + 1 / 2) : ℤ) / 10000

/-- `name_norm` of the loop body: the record's stripped display name,
normalized. -/
def nameNormOf (rec : DiseaseRec) : Str := _normalize_text (stripStr rec.disease_name)

/-- `name_tokens` of the loop body: the distinct non-stopword tokens of
the normalized name (a Python `set`; only its cardinality and
membership are consumed, so first-occurrence deduplication is
faithful). -/
def nameTokensOf (rec : DiseaseRec) : List Str :=
  ((splitWs (nameNormOf rec)).filter fun t => !(_STOP.contains t)).dedup

/-- `overlap` of the loop body: `|q_tokens ∩ name_tokens| /
max(1, |name_tokens|)` when both token sets are non-empty, else 0. -/
def overlapOf (toks : List Str) (rec : DiseaseRec) : ℚ :=
  let nts := nameTokensOf rec
  if nts ≠ [] ∧ toks ≠ [] then
    ((nts.filter fun t => toks.contains t).length : ℚ) / (max 1 nts.length : ℕ)
  else 0

/-- `substring_boost` of the loop body. Python parses the guard as
`(name_norm and name_norm in q_lower) or (q_lower in name_norm)`. -/
def substringBoostOf (q_lower : Str) (rec : DiseaseRec) : ℚ :=
  if (nameNormOf rec ≠ [] ∧ containsSub (nameNormOf rec) q_lower) ∨
      containsSub q_lower (nameNormOf rec) then 95 / 100
  else 0

/-- `score_name = max(overlap, substring_boost)`. -/
def scoreNameOf (toks : List Str) (q_lower : Str) (rec : DiseaseRec) : ℚ :=
  max (overlapOf toks rec) (substringBoostOf q_lower rec)

/-- `score = max(score_sem, score_name)`. -/
def scoreOf (sem : Str → ℚ) (toks : List Str) (q_lower : Str) (rec : DiseaseRec) : ℚ :=
  max (sem rec.disease_id) (scoreNameOf toks q_lower rec)

/-- `dyn_threshold`: the base threshold, lowered to
`min(threshold, 0.2)` when `score_name >= 0.8`. -/
def dynThresholdOf (θ : ℚ) (toks : List Str) (q_lower : Str) (rec : DiseaseRec) : ℚ :=
  if scoreNameOf toks q_lower rec ≥ 8 / 10 then min θ (2 / 10) else θ

/-- `sym_norm`: the record's normalized symptoms text. -/
def symNormOf (rec : DiseaseRec) : Str := _normalize_text rec.symptoms_text

/-- `matched = [k for k in toks if k in sym_norm]` (the same expression
also produces `best_overlap_tokens` when the running best is
updated). -/
def matchedToksOf (toks : List Str) (rec : DiseaseRec) : List Str :=
  toks.filter fun k => containsSub k (symNormOf rec)

/-- The acceptance test of the loop body: `score >= dyn_threshold`. -/
def acceptsRec (sem : Str → ℚ) (θ : ℚ) (toks : List Str) (q_lower : Str)
    (rec : DiseaseRec) : Bool :=
  scoreOf sem toks q_lower rec ≥ dynThresholdOf θ toks q_lower rec

/-- The snippet of an accepted match: first six intersection tokens,
else a `name match:` marker when the strong-name path fired, else the
raw symptoms text truncated to 60 characters. -/
def snippetOf (toks : List Str) (q_lower : Str) (rec : DiseaseRec) : Str :=
  let matched := matchedToksOf toks rec
  if matched ≠ [] then joinWith (str ", ") (matched.take 6)
  else if scoreNameOf toks q_lower rec ≥ 8 / 10 then
    str "name match: " ++ stripStr rec.disease_name
  else rec.symptoms_text.take 60

/-- The dict appended to `matches` for an accepted record. -/
def mkEntry (sem : Str → ℚ) (toks : List Str) (q_lower : Str)
    (rec : DiseaseRec) : MatchEntry :=
  { disease_id := rec.disease_id
    disease_name := rec.disease_name
    match_score := round4 (scoreOf sem toks q_lower rec)
    matched_symptom_snippet := snippetOf toks q_lower rec
    notes := rec.notes }

/-- The accepted entries in knowledge-base order: the loop appends
`mkEntry rec` exactly for the records passing the acceptance test, so
the `matches` list before sorting is this filter-then-map. -/
def rawMatches (sem : Str → ℚ) (θ : ℚ) (toks : List Str) (q_lower : Str)
    (db : List DiseaseRec) : List MatchEntry :=
  (db.filter (acceptsRec sem θ toks q_lower)).map (mkEntry sem toks q_lower)

/-- Stable descending insertion for `matches.sort(key=score,
reverse=True)` (Python's sort is stable: an earlier entry precedes a
later one of equal score). -/
def insertDesc (m : MatchEntry) : List MatchEntry → List MatchEntry
  | [] => [m]
  | x :: xs => if x.match_score > m.match_score then x :: insertDesc m xs else m :: x :: xs

/-- The sorted `matches` list. -/
def sortDesc (l : List MatchEntry) : List MatchEntry := l.foldr insertDesc []

/-- The running `(best, best_score)` fold of the loop, starting from
`(None, -1.0)` and updating on strictly greater scores
(`best_overlap_tokens` is recomputed from the final best record by
`matchedToksOf`, which is the same expression the loop stores). -/
def bestFold (sem : Str → ℚ) (toks : List Str) (q_lower : Str)
    (db : List DiseaseRec) : Option DiseaseRec × ℚ :=
  db.foldl
    (fun acc rec =>
      if scoreOf sem toks q_lower rec > acc.2 then (some rec, scoreOf sem toks q_lower rec)
      else acc)
    (none, -1)

/-- The low-confidence fallback entry appended when no match was
accepted but the best record overlaps the query tokens. The source
suffixes the notes with a low-confidence marker (its dash is mojibake
in the file, rendered plainly here) and strips the result. -/
def fallbackEntry (toks : List Str) (brec : DiseaseRec) (bscore : ℚ) : MatchEntry :=
  { disease_id := brec.disease_id
    disease_name := brec.disease_name
    match_score := round4 bscore
    matched_symptom_snippet :=
      if matchedToksOf toks brec ≠ [] then joinWith (str ", ") ((matchedToksOf toks brec).take 6)
      else brec.symptoms_text.take 60
    notes := stripStr (brec.notes ++ str " | Possible related condition - confidence low.") }

/-- The full match pipeline of `researcher_search` after the input
check: normalize, score every record, sort accepted matches, and
append the single low-confidence fallback when the accepted set is
empty and the best-scoring record shares a token with the query. -/
def search_matches (sem : Str → ℚ) (db : List DiseaseRec) (text : Str) (θ : ℚ) :
    List MatchEntry :=
  let np := normalize_and_expand text
  let toks := np.2
  let q_lower := lowerStr np.1
  let sorted := sortDesc (rawMatches sem θ toks q_lower db)
  match bestFold sem toks q_lower db with
  | (some brec, bscore) =>
    if sorted = [] ∧ matchedToksOf toks brec ≠ [] then
      sorted ++ [fallbackEntry toks brec bscore]
    else sorted
  | (none, _) => sorted

/-- `researcher_search` of researcher.py (the `matches` component of
its response): empty or whitespace-only text is rejected with the HTTP
400 error `"text is required"` before normalization or any embedding
happens; otherwise the match pipeline runs. -/
def researcher_search (sem : Str → ℚ) (db : List DiseaseRec) (text : Str) (θ : ℚ) :
    Except Str (List MatchEntry) :=
  if stripStr text = [] then Except.error (str "text is required")
  else Except.ok (search_matches sem db text θ)

/-! Spec-side definitions, for the claims that compare the source
against the spec's wording. -/

/-- Modelled from the spec (§4.1, lemmatization): "strip trailing
`ing`, convert trailing `ies`→`y`, strip trailing `ed`, strip trailing
`s` — first matching rule in a fixed priority order wins, applied once
per token, not recursively." Only the first rule whose suffix matches
is applied, exactly once. Stated for comparison with the source's
`lemmatize_token`. -/
def lemmatizeFirstMatch (tok : Str) : Str :=
  match _SUFFIX_RULES.find? (fun r => r.1.isSuffixOf tok) with
  | some r => applySuffixRule tok r
  | none => tok

/-- Sum of squares of a rational vector (the quantity fixed to 1 by
an L2-normalized embedding). -/
def sumSq (l : List ℚ) : ℚ := (l.map fun x => x * x).sum

/-- A character through which one pass of `normalize_and_expand` moves
unchanged: fixed by `str.lower`, inside the kept class of the
punctuation strip, not whitespace, and not an underscore. -/
def stableChar (c : Char) : Bool :=
  Char.toLower c == c && keepChar c && !(isWs c) && !(c == '_')

/-- A token that one pass of `normalize_and_expand` reproduces: it is
non-empty, made of stable characters, not a stopword, and a fixed
point of `lemmatize_token`. -/
def stableTok (t : Str) : Bool :=
  !(t.isEmpty) && t.all stableChar && !(_STOP.contains t) && (lemmatize_token t == t)

/-- Stability of a whole normalization output `(n1, toks)`: every
token is stable and the normalized text contains no preserved phrase
and no synonym key (underscored or plain), so that the phrase and
synonym rewrites of a second pass cannot fire. -/
def stableOutput (n1 : Str) (toks : List Str) : Bool :=
  toks.all stableTok &&
  _PHRASES.all (fun p => !(containsSub p n1)) &&
  _SYNONYMS.all (fun kv => !(containsSub (underscored kv.1) n1) && !(containsSub kv.1 n1))

/-! Concrete instances used by counterexamples and witnesses. -/

/-- Counterexample record for C2: its name shares the token `cough`
with the query below (overlap 1/2) but its symptoms text is empty, so
it shares no symptom token. An empty symptoms text gives the empty
hashed bag-of-words vector, whose cosine against any query is exactly
0, so the semantic-score oracle value 0 is realized by the source. -/
def recCoughBarn : DiseaseRec :=
  { disease_id := str "d-a", disease_name := str "Cough Barn",
    symptoms_text := str "", notes := str "na" }

/-- Counterexample record for C2: its symptoms text shares the token
`fever` with the query below, while its name shares nothing. The
semantic-score oracle value 1/2 is realized by the source's hashed
bag-of-words fallback whenever the hash does not collide the tokens
(the query and symptom vectors then share exactly one of two unit
directions each). -/
def recFeverStuff : DiseaseRec :=
  { disease_id := str "d-b", disease_name := str "zz",
    symptoms_text := str "fever stuff", notes := str "nb" }

/-- The two-record knowledge base of the C2 counterexample. -/
def dbC2 : List DiseaseRec := [recCoughBarn, recFeverStuff]

/-- Semantic-score oracle of the C2 counterexample. -/
def semC2 : Str → ℚ := fun did => if did = str "d-b" then 1 / 2 else 0

/-- A record whose symptoms share the token `cough` with the query
`cough fever` (used to exercise the fallback branch). -/
def recFb : DiseaseRec :=
  { disease_id := str "d1", disease_name := str "zz",
    symptoms_text := str "cough stuff", notes := str "n" }

/-- Single-record knowledge base on which the low-confidence fallback
does fire (the best record shares the token `cough` with the query). -/
def dbFb : List DiseaseRec := [recFb]

/-- A record whose normalized label `cough` is a substring of the
normalized query `cough fever` (name-match bypass). -/
def recC6 : DiseaseRec :=
  { disease_id := str "d1", disease_name := str "Cough",
    symptoms_text := str "whatever", notes := str "n" }

/-- Single-record knowledge base for the name-match bypass. -/
def dbC6 : List DiseaseRec := [recC6]

/-- Embedding oracle of the C5 counterexample: two antipodal
unit-length (1-dimensional) L2-normalized vectors, as a pluggable
sentence-transformers model may produce for some input pair. -/
def embC5 : Str → List ℚ := fun s => if s = str "q" then [(1 : ℚ)] else [(-1 : ℚ)]

/-- Placeholder rapidfuzz oracle for configurations where the fuzzy
backend is absent (the value is never consulted). -/
def qrZero : Str → Str → ℚ := fun _ _ => 0

/-- A rapidfuzz oracle within `QRatio`'s 0–100 range. -/
def qr50 : Str → Str → ℚ := fun _ _ => 50

/-- A constant unit-norm embedding oracle. -/
def embOne : Str → List ℚ := fun _ => [(1 : ℚ)]

/-! General helper lemmas about the string machinery. -/

theorem foldl_fixed {α β : Type} {f : β → α → β} {s : β} :
    ∀ {l : List α}, (∀ x ∈ l, f s x = s) → l.foldl f s = s
  | [], _ => rfl
  | x :: xs, h => by
    rw [List.foldl_cons, h x (List.mem_cons_self x xs)]
    exact foldl_fixed fun y hy => h y (List.mem_cons_of_mem x hy)

theorem mapIdOn {α : Type} {f : α → α} :
    ∀ {l : List α}, (∀ x ∈ l, f x = x) → l.map f = l
  | [], _ => rfl
  | x :: xs, h => by
    rw [List.map_cons, h x (List.mem_cons_self x xs)]
    rw [mapIdOn fun y hy => h y (List.mem_cons_of_mem x hy)]

theorem containsSub_cons (pat : Str) (c : Char) (rest : Str) :
    containsSub pat (c :: rest) = (pat.isPrefixOf (c :: rest) || containsSub pat rest) := rfl

theorem replaceAllF_id (pat repl : Str) :
    ∀ (fuel : Nat) (s : Str), containsSub pat s = false → replaceAllF pat repl fuel s = s := by
  intro fuel
  induction fuel with
  | zero => intro s _; rfl
  | succ n ih =>
    intro s h
    cases s with
    | nil => rfl
    | cons c rest =>
      rw [containsSub_cons, Bool.or_eq_false_iff] at h
      rw [replaceAllF, if_neg, ih rest h.2]
      rintro ⟨-, hpre⟩
      rw [h.1] at hpre
      exact Bool.false_ne_true hpre

theorem replaceAll_id (pat repl s : Str) (h : containsSub pat s = false) :
    replaceAll pat repl s = s :=
  replaceAllF_id pat repl s.length s h

theorem length_dropWhile_le {α : Type} (p : α → Bool) :
    ∀ (l : List α), (l.dropWhile p).length ≤ l.length
  | [] => Nat.le_refl _
  | x :: xs => by
    rw [List.dropWhile_cons]
    by_cases hx : p x = true
    · rw [if_pos hx]
      exact Nat.le_succ_of_le (length_dropWhile_le p xs)
    · rw [if_neg hx]

theorem splitWsF_congr :
    ∀ (f1 f2 : Nat) (s : Str), s.length ≤ f1 → s.length ≤ f2 →
      splitWsF f1 s = splitWsF f2 s := by
  intro f1
  induction f1 with
  | zero =>
    intro f2 s h1 _
    have hs : s = [] := List.length_eq_zero.mp (Nat.le_zero.mp h1)
    subst hs
    cases f2 <;> rfl
  | succ n ih =>
    intro f2 s h1 h2
    cases s with
    | nil => cases f2 <;> rfl
    | cons c rest =>
      cases f2 with
      | zero => simp at h2
      | succ m =>
        have h1r : rest.length ≤ n := Nat.lt_succ_iff.mp h1
        have h2r : rest.length ≤ m := Nat.lt_succ_iff.mp h2
        rw [splitWsF, splitWsF]
        by_cases hc : isWs c = true
        · rw [if_pos hc, if_pos hc, ih m rest h1r h2r]
        · rw [if_neg hc, if_neg hc]
          have hd := length_dropWhile_le (fun d => !(isWs d)) rest
          rw [ih m _ (Nat.le_trans hd h1r) (Nat.le_trans hd h2r)]

theorem splitWs_cons (c : Char) (rest : Str) :
    splitWs (c :: rest) =
      if isWs c then splitWs rest
      else (c :: rest.takeWhile (fun d => !(isWs d))) ::
        splitWs (rest.dropWhile (fun d => !(isWs d))) := by
  show splitWsF (rest.length + 1) (c :: rest) = _
  rw [splitWsF]
  by_cases hc : isWs c = true
  · rw [if_pos hc, if_pos hc]
    rfl
  · rw [if_neg hc, if_neg hc]
    have hd := length_dropWhile_le (fun d => !(isWs d)) rest
    rw [splitWsF_congr rest.length _ _ hd (Nat.le_refl _)]
    rfl

theorem splitWs_all_ws :
    ∀ (s : Str), (∀ c ∈ s, isWs c = true) → splitWs s = []
  | [], _ => rfl
  | c :: rest, h => by
    rw [splitWs_cons, if_pos (h c (List.mem_cons_self c rest))]
    exact splitWs_all_ws rest fun d hd => h d (List.mem_cons_of_mem c hd)

theorem splitWs_word (w : Str) (hw : w ≠ []) (hnw : ∀ c ∈ w, isWs c = false) :
    splitWs w = [w] := by
  cases w with
  | nil => exact absurd rfl hw
  | cons c rest =>
    rw [splitWs_cons, if_neg]
    · rw [List.takeWhile_eq_self_iff.mpr, List.dropWhile_eq_nil_iff.mpr, splitWs]
      · rfl
      · intro d hd
        simp [hnw d (List.mem_cons_of_mem c hd)]
      · intro d hd
        simp [hnw d (List.mem_cons_of_mem c hd)]
    · simp [hnw c (List.mem_cons_self c rest)]

theorem takeWhile_append_stop {p : Char → Bool} :
    ∀ (u : Str) (b : Char) (t : Str), (∀ c ∈ u, p c = true) → p b = false →
      (u ++ b :: t).takeWhile p = u := by
  intro u b t hu hb
  induction u with
  | nil => simp [List.takeWhile_cons, hb]
  | cons x xs ih =>
    rw [List.cons_append, List.takeWhile_cons, if_pos (hu x (List.mem_cons_self x xs))]
    rw [ih fun c hc => hu c (List.mem_cons_of_mem x hc)]

theorem dropWhile_append_stop {p : Char → Bool} :
    ∀ (u : Str) (b : Char) (t : Str), (∀ c ∈ u, p c = true) → p b = false →
      (u ++ b :: t).dropWhile p = b :: t := by
  intro u b t hu hb
  induction u with
  | nil => simp [List.dropWhile_cons, hb]
  | cons x xs ih =>
    rw [List.cons_append, List.dropWhile_cons, if_pos (hu x (List.mem_cons_self x xs))]
    exact ih fun c hc => hu c (List.mem_cons_of_mem x hc)

theorem splitWs_word_append (w t : Str) (hw : w ≠ []) (hnw : ∀ c ∈ w, isWs c = false) :
    splitWs (w ++ ' ' :: t) = w :: splitWs t := by
  cases w with
  | nil => exact absurd rfl hw
  | cons c rest =>
    rw [List.cons_append, splitWs_cons, if_neg]
    · rw [takeWhile_append_stop rest ' ' t, dropWhile_append_stop rest ' ' t]
      · rw [splitWs_cons, if_pos]
        rfl
      · intro d hd
        simp [hnw d (List.mem_cons_of_mem c hd)]
      · rfl
      · intro d hd
        simp [hnw d (List.mem_cons_of_mem c hd)]
      · rfl
    · simp [hnw c (List.mem_cons_self c rest)]

theorem joinWith_cons₂ (sep : Str) (w x : Str) (ws : List Str) :
    joinWith sep (w :: x :: ws) = w ++ sep ++ joinWith sep (x :: ws) := rfl

theorem splitWs_join :
    ∀ (toks : List Str),
      (∀ w ∈ toks, w ≠ [] ∧ ∀ c ∈ w, isWs c = false) →
      splitWs (joinWith (str " ") toks) = toks := by
  intro toks
  induction toks with
  | nil => intro _; rfl
  | cons w ws ih =>
    intro h
    cases ws with
    | nil =>
      show splitWs w = [w]
      exact splitWs_word w (h w (List.mem_cons_self w [])).1 (h w (List.mem_cons_self w [])).2
    | cons x xs =>
      rw [joinWith_cons₂]
      have hsep : w ++ str " " ++ joinWith (str " ") (x :: xs)
          = w ++ ' ' :: joinWith (str " ") (x :: xs) := by
        rw [List.append_assoc]
        rfl
      rw [hsep,
        splitWs_word_append w _ (h w (List.mem_cons_self w _)).1 (h w (List.mem_cons_self w _)).2,
        ih fun u hu => h u (List.mem_cons_of_mem w hu)]

theorem mem_joinWith (sep : Str) :
    ∀ (l : List Str) (c : Char), c ∈ joinWith sep l → c ∈ sep ∨ ∃ w ∈ l, c ∈ w := by
  intro l
  induction l with
  | nil => intro c hc; exact absurd hc (List.not_mem_nil c)
  | cons w ws ih =>
    intro c hc
    cases ws with
    | nil => exact Or.inr ⟨w, List.mem_cons_self w [], hc⟩
    | cons x xs =>
      rw [joinWith_cons₂] at hc
      rcases List.mem_append.mp hc with h | h
      · rcases List.mem_append.mp h with h | h
        · exact Or.inr ⟨w, List.mem_cons_self w _, h⟩
        · exact Or.inl h
      · rcases ih c h with h | ⟨u, hu, hcu⟩
        · exact Or.inl h
        · exact Or.inr ⟨u, List.mem_cons_of_mem w hu, hcu⟩

/-! Lemmas about one pass of the normalizer. -/

theorem toLower_ws {c : Char} (h : isWs c = true) : Char.toLower c = c := by
  simp only [isWs, Bool.or_eq_true, beq_iff_eq] at h
  rcases h with ((((h | h) | h) | h) | h) | h <;> subst h <;> decide

theorem contains_false_ws (pat s : Str) (hs : ∀ c ∈ s, isWs c = true)
    (hex : ∃ c ∈ pat, isWs c = false) : containsSub pat s = false := by
  induction s with
  | nil =>
    obtain ⟨c0, hc0, -⟩ := hex
    cases pat with
    | nil => exact absurd hc0 (List.not_mem_nil c0)
    | cons d ds => rfl
  | cons c rest ih =>
    rw [containsSub_cons, Bool.or_eq_false_iff]
    refine ⟨?_, ih fun d hd => hs d (List.mem_cons_of_mem c hd)⟩
    by_contra hpre
    rw [Bool.not_eq_false] at hpre
    have hsub := (List.isPrefixOf_iff_prefix.mp hpre).subset
    obtain ⟨c0, hc0, hc0f⟩ := hex
    rw [hs c0 (hsub hc0)] at hc0f
    simp at hc0f

theorem phrasePass_ws (s : Str) (h : ∀ c ∈ s, isWs c = true) : phrasePass s = s := by
  unfold phrasePass
  apply foldl_fixed
  intro p hp
  apply replaceAll_id
  have hall : _PHRASES.all (fun p => p.any fun c => !(isWs c)) = true := by decide
  rw [List.all_eq_true] at hall
  have hany := hall p hp
  rw [List.any_eq_true] at hany
  obtain ⟨c0, hc0, hc0w⟩ := hany
  exact contains_false_ws p s h ⟨c0, hc0, by simpa using hc0w⟩

theorem normalize_ws (text : Str) (h : ∀ c ∈ text, isWs c = true) :
    (normalize_and_expand text).2 = [] := by
  have h1 : lowerStr text = text := mapIdOn fun c hc => toLower_ws (h c hc)
  have hph : phrasePass text = text := phrasePass_ws text h
  have h3 : stripNonAlnum text = text := mapIdOn fun c hc => by
    have hw := h c hc
    simp [keepChar, hw]
  have h4 : splitWs text = [] := splitWs_all_ws text h
  simp only [normalize_and_expand, normTokens, h1, hph, h3, rawTokens, h4]
  decide

/-- Unpacked form of `stableChar`. -/
theorem stableChar_spec {c : Char} (h : stableChar c = true) :
    Char.toLower c = c ∧ keepChar c = true ∧ isWs c = false ∧ c ≠ '_' := by
  simp only [stableChar, Bool.and_eq_true, Bool.not_eq_true', beq_iff_eq,
    beq_eq_false_iff_ne] at h
  exact ⟨h.1.1.1, h.1.1.2, h.1.2, h.2⟩

/-- Unpacked form of `stableTok`. -/
theorem stableTok_spec {w : Str} (h : stableTok w = true) :
    w ≠ [] ∧ (∀ c ∈ w, stableChar c = true) ∧
      _STOP.contains w = false ∧ lemmatize_token w = w := by
  simp only [stableTok, Bool.and_eq_true, Bool.not_eq_true', beq_iff_eq,
    List.all_eq_true, List.isEmpty_eq_false] at h
  exact ⟨h.1.1.1, h.1.1.2, h.1.2, h.2⟩

/-- The normalized text is by construction the space-joined token list
with underscores turned back into spaces. -/
theorem normalize_fst (text : Str) :
    (normalize_and_expand text).1
      = (joinWith (str " ") ((normalize_and_expand text).2)).map
          (fun c => if c = '_' then ' ' else c) := by
  simp only [normalize_and_expand]

/-- Core of the amended idempotence claim: a space-joined list of
stable tokens, free of phrase and synonym occurrences, is a fixed
point of `normalize_and_expand`. -/
theorem normalize_fixed (toks : List Str)
    (ht : toks.all stableTok = true)
    (hp : _PHRASES.all (fun p => !(containsSub p (joinWith (str " ") toks))) = true)
    (hs : _SYNONYMS.all (fun kv => !(containsSub (underscored kv.1) (joinWith (str " ") toks))
      && !(containsSub kv.1 (joinWith (str " ") toks))) = true) :
    normalize_and_expand (joinWith (str " ") toks) = (joinWith (str " ") toks, toks) := by
  rw [List.all_eq_true] at ht hp hs
  have htok : ∀ w ∈ toks, w ≠ [] ∧ (∀ c ∈ w, stableChar c = true) ∧
      _STOP.contains w = false ∧ lemmatize_token w = w :=
    fun w hw => stableTok_spec (ht w hw)
  have hchar : ∀ c ∈ joinWith (str " ") toks, c = ' ' ∨ stableChar c = true := by
    intro c hc
    rcases mem_joinWith (str " ") toks c hc with h | ⟨w, hw, hcw⟩
    · left
      simpa [str] using h
    · right
      exact (htok w hw).2.1 c hcw
  have h1 : lowerStr (joinWith (str " ") toks) = joinWith (str " ") toks := by
    apply mapIdOn
    intro c hc
    rcases hchar c hc with h | h
    · subst h; decide
    · exact (stableChar_spec h).1
  have hph : phrasePass (joinWith (str " ") toks) = joinWith (str " ") toks := by
    apply foldl_fixed
    intro p hpp
    apply replaceAll_id
    have := hp p hpp
    rwa [Bool.not_eq_true'] at this
  have h3 : stripNonAlnum (joinWith (str " ") toks) = joinWith (str " ") toks := by
    apply mapIdOn
    intro c hc
    rcases hchar c hc with h | h
    · subst h; decide
    · simp [(stableChar_spec h).2.1]
  have h4 : splitWs (joinWith (str " ") toks) = toks := by
    apply splitWs_join
    intro w hw
    refine ⟨(htok w hw).1, ?_⟩
    intro c hcw
    exact (stableChar_spec ((htok w hw).2.1 c hcw)).2.2.1
  have h5 : rawTokens (joinWith (str " ") toks) = toks := by
    simp only [rawTokens, h4]
    apply List.filter_eq_self.mpr
    intro w hw
    rw [Bool.not_eq_true']
    exact (htok w hw).2.2.1
  have h6 : synonymPass (joinWith (str " ") toks) = joinWith (str " ") toks := by
    apply foldl_fixed
    intro kv hkv
    have := hs kv hkv
    rw [Bool.and_eq_true, Bool.not_eq_true', Bool.not_eq_true'] at this
    rw [if_neg, if_neg]
    · rw [this.2]
      exact Bool.false_ne_true
    · rw [this.1]
      exact Bool.false_ne_true
  have h7 : toks.map lemmatize_token = toks :=
    mapIdOn fun w hw => (htok w hw).2.2.2
  have h8 : (joinWith (str " ") toks).map (fun c => if c = '_' then ' ' else c)
      = joinWith (str " ") toks := by
    apply mapIdOn
    intro c hc
    rcases hchar c hc with h | h
    · subst h; decide
    · rw [if_neg (stableChar_spec h).2.2.2]
  simp only [normalize_and_expand, normTokens]
  rw [h1, hph, h3, h5, h6, h4, h7, h8]

/-! Claim C1. -/

/-- C1 counterexample: on the empty input, the matcher does not return
an empty result set without an exception; `researcher_search` raises
an HTTP 400 `text is required` error. -/
theorem C1_counterexample :
    researcher_search (fun _ => 0) [] (str "") (1 / 2)
      = Except.error (str "text is required") := by decide

/-- C1 (corrected): for every empty or whitespace-only input text,
normalization returns an empty token list, but the matcher rejects the
request with the HTTP 400 error `text is required` — raised before the
Embedding Provider or anything else runs — instead of returning an
empty result set with zero matches and zero hypotheses. -/
theorem C1_blank_input_amended (sem : Str → ℚ) (db : List DiseaseRec) (text : Str) (θ : ℚ)
    (h : ∀ c ∈ text, isWs c = true) :
    (normalize_and_expand text).2 = [] ∧
      researcher_search sem db text θ = Except.error (str "text is required") := by
  refine ⟨normalize_ws text h, ?_⟩
  have hd : text.dropWhile (fun c => isWs c) = [] :=
    List.dropWhile_eq_nil_iff.mpr fun x hx => h x hx
  simp [researcher_search, stripStr, hd]

/-- C1 witness: the amended statement at the concrete one-space
input. -/
theorem C1_blank_input_witness :
    (∀ c ∈ str " ", isWs c = true) ∧
      ((normalize_and_expand (str " ")).2 = [] ∧
        researcher_search (fun _ => 0) [] (str " ") (1 / 2)
          = Except.error (str "text is required")) :=
  ⟨by decide, C1_blank_input_amended (fun _ => 0) [] (str " ") (1 / 2) (by decide)⟩

/-! Claim C3. -/

/-- C3 counterexample: normalization is not idempotent. The input
`buildings` normalizes to the single token `building`
(only the `s` rule fires), and re-normalizing the resulting text
applies the suffix rules again, producing `build`. -/
theorem C3_counterexample :
    (normalize_and_expand (str "buildings")).2 = [str "building"] ∧
      (normalize_and_expand ((normalize_and_expand (str "buildings")).1)).2 = [str "build"] ∧
      (normalize_and_expand ((normalize_and_expand (str "buildings")).1)).2
        ≠ (normalize_and_expand (str "buildings")).2 := by
  refine ⟨by decide, by decide, by decide⟩

/-- C3 (corrected): `normalize_and_expand` is idempotent only on
inputs whose normalization output is stable — every produced token is
non-empty, made of characters fixed by the pipeline (lowercase-fixed,
in the kept class, non-whitespace, non-underscore), is not a stopword
and is a fixed point of `lemmatize_token`, and the normalized text
contains no preserved phrase and no synonym key. On such inputs the
second pass reproduces both the normalized text and the token list;
in general a second pass re-applies lemmatization (and the stopword,
phrase and synonym rewrites) to its own output and changes it. -/
theorem C3_idempotence_amended (text : Str)
    (h : stableOutput (normalize_and_expand text).1 (normalize_and_expand text).2 = true) :
    normalize_and_expand ((normalize_and_expand text).1) = normalize_and_expand text := by
  simp only [stableOutput, Bool.and_eq_true] at h
  obtain ⟨⟨ht, hp⟩, hs⟩ := h
  have hchar : ∀ w ∈ (normalize_and_expand text).2, stableTok w = true := List.all_eq_true.mp ht
  have hn1 : (normalize_and_expand text).1
      = joinWith (str " ") ((normalize_and_expand text).2) := by
    rw [normalize_fst text]
    apply mapIdOn
    intro c hc
    rcases mem_joinWith _ _ c hc with hsep | ⟨w, hw, hcw⟩
    · have hc' : c = ' ' := by simpa [str] using hsep
      subst hc'
      decide
    · exact if_neg (stableChar_spec ((stableTok_spec (hchar w hw)).2.1 c hcw)).2.2.2
  rw [hn1] at hp hs ⊢
  rw [normalize_fixed ((normalize_and_expand text).2) ht hp hs, ← hn1]

/-- C3 witness: the amended statement at the concrete input
`fever cough`, whose normalization output is stable. -/
theorem C3_idempotence_witness :
    stableOutput (normalize_and_expand (str "fever cough")).1
        (normalize_and_expand (str "fever cough")).2 = true ∧
      normalize_and_expand ((normalize_and_expand (str "fever cough")).1)
        = normalize_and_expand (str "fever cough") :=
  ⟨by decide, C3_idempotence_amended (str "fever cough") (by decide)⟩

/-! Claim C4. -/

/-- C4 counterexample: on the token `dressed`, the first matching
suffix rule is `ed`, whose lone application would give `dress`; the
source instead also applies the later `s` rule to that output and
returns `dres`, so the rules are cumulative, not first-match-wins. -/
theorem C4_counterexample :
    lemmatize_token (str "dressed") = str "dres" ∧
      lemmatizeFirstMatch (str "dressed") = str "dress" ∧
      lemmatize_token (str "dressed") ≠ lemmatizeFirstMatch (str "dressed") := by
  refine ⟨by decide, by decide, by decide⟩

/-- C4 (corrected): `lemmatize_token` applies the four suffix rules in
their fixed order, each rule exactly once (the end-anchored pattern
cannot recurse), but cumulatively — each rule acts on the output of
the previous rule rather than the first matching rule winning
alone. -/
theorem C4_cumulative_amended (tok : Str) :
    lemmatize_token tok =
      applySuffixRule (applySuffixRule (applySuffixRule (applySuffixRule tok
        (str "ing", str "")) (str "ies", str "y")) (str "ed", str "")) (str "s", str "") := rfl

/-! Claim C9. -/

/-- C9 (confirmed): `cosine` matches the spec's description — the dot
product over the shared prefix of length `min (len a) (len b)` divided
by the product of each vector's norm over that same prefix, a zero
norm being replaced by 1, and exactly 0.0 when either vector is
empty. -/
theorem C9_cosine_confirmed (sqrtQ : ℚ → ℚ) (a b : List ℚ) :
    cosine sqrtQ a b = cosineSpecSide sqrtQ a b := by
  unfold cosine cosineSpecSide pyGuard1
  rcases a with _ | ⟨x, a⟩
  · simp
  · rcases b with _ | ⟨y, b⟩
    · simp
    · simp [Nat.succ_min_succ]

/-! Claim C10. -/

/-- C10 (confirmed): on an empty vocabulary `best_match` raises no
error and returns the sentinel pair `("", -1.0)`, whose score is
negative and hence outside the `[0, 1]` range of the other scoring
paths. -/
theorem C10_empty_vocabulary_confirmed (haveFuzz : Bool) (qratio : Str → Str → ℚ)
    (haveST : Bool) (emb : Str → List ℚ) (candidate : Str) (w_fuzzy w_sem : ℚ) :
    best_match haveFuzz qratio haveST emb candidate [] w_fuzzy w_sem = (str "", -1) ∧
      (best_match haveFuzz qratio haveST emb candidate [] w_fuzzy w_sem).2 < 0 := by
  refine ⟨rfl, ?_⟩
  show (-1 : ℚ) < 0
  norm_num

/-! Claim C5. -/

/-- C5 counterexample: with the documented 0.4/0.6 weights and an
L2-normalized embedding model that maps the two strings to antipodal
unit vectors, `hybrid_similarity` returns -3/5, outside `[0, 1]` — no
clamping of the negative cosine happens anywhere in the source. -/
theorem C5_counterexample :
    hybrid_similarity false qrZero true embC5 (str "q") (str "c") (4 / 10) (6 / 10)
        = -(3 / 5) ∧
      hybrid_similarity false qrZero true embC5 (str "q") (str "c") (4 / 10) (6 / 10) < 0 := by
  refine ⟨by decide, by decide⟩

/-- Elementary two-sided bound on a dot product of equal-length
vectors: `2|⟨a,b⟩| ≤ Σa² + Σb²`. -/
theorem dot_sq_bound :
    ∀ (va vb : List ℚ), va.length = vb.length →
      2 * (List.zipWith (· * ·) va vb).sum ≤ sumSq va + sumSq vb ∧
        -(sumSq va + sumSq vb) ≤ 2 * (List.zipWith (· * ·) va vb).sum := by
  intro va
  induction va with
  | nil =>
    intro vb h
    have hvb : vb = [] := List.length_eq_zero.mp h.symm
    subst hvb
    constructor <;> simp [sumSq]
  | cons x xs ih =>
    intro vb h
    cases vb with
    | nil => simp at h
    | cons y ys =>
      have h' : xs.length = ys.length := by simpa using h
      obtain ⟨ih1, ih2⟩ := ih ys h'
      constructor
      · simp only [List.zipWith_cons_cons, List.sum_cons, sumSq, List.map_cons]
        simp only [sumSq] at ih1
        nlinarith [sq_nonneg (x - y)]
      · simp only [List.zipWith_cons_cons, List.sum_cons, sumSq, List.map_cons]
        simp only [sumSq] at ih2
        nlinarith [sq_nonneg (x + y)]

/-- C5 (corrected): `hybrid_similarity` performs no clamping; its
value is `w_fuzzy * fuzzy + w_sem * semantic` where the fuzzy
component lies in `[0, 1]` (QRatio is a 0–100 score, the fallback is
exact-match 1/0) and the semantic component lies in `[-1, 1]` for an
L2-normalized embedding model (or is 0 without one). Hence for
non-negative weights the output lies in `[-w_sem, w_fuzzy + w_sem]`,
which meets `[0, 1]` only when the semantic component is
non-negative. -/
theorem C5_bounds_amended (haveFuzz : Bool) (qratio : Str → Str → ℚ)
    (haveST : Bool) (emb : Str → List ℚ) (a b : Str) (w_fuzzy w_sem : ℚ)
    (hwf : 0 ≤ w_fuzzy) (hws : 0 ≤ w_sem)
    (hqr : ∀ x y : Str, 0 ≤ qratio x y ∧ qratio x y ≤ 100)
    (hemb : ∀ s : Str, sumSq (emb s) = 1) :
    -w_sem ≤ hybrid_similarity haveFuzz qratio haveST emb a b w_fuzzy w_sem ∧
      hybrid_similarity haveFuzz qratio haveST emb a b w_fuzzy w_sem ≤ w_fuzzy + w_sem := by
  have hf : 0 ≤ fuzzy_similarity haveFuzz qratio a b ∧
      fuzzy_similarity haveFuzz qratio a b ≤ 1 := by
    unfold fuzzy_similarity
    by_cases hFz : haveFuzz = true
    · obtain ⟨h1, h2⟩ := hqr a b
      rw [if_pos hFz]
      refine ⟨by positivity, ?_⟩
      rw [div_le_one (by norm_num)]
      exact h2
    · rw [if_neg hFz]
      by_cases hab : a = b <;> simp [hab]
  have hsem : -1 ≤ semantic_similarity haveST emb a b ∧
      semantic_similarity haveST emb a b ≤ 1 := by
    unfold semantic_similarity
    by_cases hST : haveST = true
    · rw [if_neg (fun hh => hh hST)]
      by_cases hlen : (emb a).length ≠ (emb b).length ∨ (emb a).length = 0
      · rw [if_pos hlen]
        norm_num
      · rw [if_neg hlen]
        push_neg at hlen
        obtain ⟨d1, d2⟩ := dot_sq_bound (emb a) (emb b) hlen.1
        rw [hemb a, hemb b] at d1 d2
        constructor <;> linarith
    · rw [if_pos hST]
      norm_num
  unfold hybrid_similarity
  have e1 : w_fuzzy * fuzzy_similarity haveFuzz qratio a b ≤ w_fuzzy * 1 :=
    mul_le_mul_of_nonneg_left hf.2 hwf
  have e2 : 0 ≤ w_fuzzy * fuzzy_similarity haveFuzz qratio a b := mul_nonneg hwf hf.1
  have e3 : w_sem * semantic_similarity haveST emb a b ≤ w_sem * 1 :=
    mul_le_mul_of_nonneg_left hsem.2 hws
  have e4 : w_sem * (-1) ≤ w_sem * semantic_similarity haveST emb a b :=
    mul_le_mul_of_nonneg_left hsem.1 hws
  constructor <;> nlinarith

/-- C5 witness: the amended bounds at a concrete configuration (both
backends present, constant unit embedding, mid-range QRatio, the
documented 0.4/0.6 weights read as 2/5 and 3/5). -/
theorem C5_bounds_witness :
    -(3 / 5 : ℚ) ≤ hybrid_similarity true qr50 true embOne (str "a") (str "b") (2 / 5) (3 / 5) ∧
      hybrid_similarity true qr50 true embOne (str "a") (str "b") (2 / 5) (3 / 5)
        ≤ 2 / 5 + 3 / 5 :=
  C5_bounds_amended true qr50 true embOne (str "a") (str "b") (2 / 5) (3 / 5)
    (by norm_num) (by norm_num)
    (fun x y => ⟨by norm_num [qr50], by norm_num [qr50]⟩)
    (fun s => by simp [sumSq, embOne])

/-! Lemmas about the matcher loop. -/

theorem length_insertDesc (m : MatchEntry) :
    ∀ (l : List MatchEntry), (insertDesc m l).length = l.length + 1
  | [] => rfl
  | x :: xs => by
    rw [insertDesc]
    by_cases hx : x.match_score > m.match_score
    · rw [if_pos hx, List.length_cons, length_insertDesc m xs, List.length_cons]
    · rw [if_neg hx]
      rfl

theorem length_sortDesc : ∀ (l : List MatchEntry), (sortDesc l).length = l.length
  | [] => rfl
  | x :: xs => by
    show (insertDesc x (sortDesc xs)).length = xs.length + 1
    rw [length_insertDesc, length_sortDesc xs]

theorem mem_insertDesc (a m : MatchEntry) :
    ∀ (l : List MatchEntry), a ∈ insertDesc m l ↔ a = m ∨ a ∈ l
  | [] => by simp [insertDesc]
  | x :: xs => by
    rw [insertDesc]
    by_cases hx : x.match_score > m.match_score
    · rw [if_pos hx]
      rw [List.mem_cons, mem_insertDesc a m xs, List.mem_cons]
      tauto
    · rw [if_neg hx]
      simp [List.mem_cons]

theorem mem_sortDesc (a : MatchEntry) :
    ∀ (l : List MatchEntry), a ∈ sortDesc l ↔ a ∈ l
  | [] => Iff.rfl
  | x :: xs => by
    show a ∈ insertDesc x (sortDesc xs) ↔ _
    rw [mem_insertDesc, mem_sortDesc a xs, List.mem_cons]

theorem sortDesc_eq_nil_iff (l : List MatchEntry) : sortDesc l = [] ↔ l = [] := by
  rw [← List.length_eq_zero, length_sortDesc, List.length_eq_zero]

theorem length_filter_mono {α : Type} {p q : α → Bool}
    (h : ∀ x, p x = true → q x = true) :
    ∀ (l : List α), (l.filter p).length ≤ (l.filter q).length
  | [] => Nat.le_refl _
  | x :: xs => by
    rw [List.filter_cons, List.filter_cons]
    by_cases hp : p x = true
    · rw [if_pos hp, if_pos (h x hp), List.length_cons, List.length_cons]
      exact Nat.succ_le_succ (length_filter_mono h xs)
    · rw [if_neg hp]
      by_cases hq : q x = true
      · rw [if_pos hq, List.length_cons]
        exact Nat.le_succ_of_le (length_filter_mono h xs)
      · rw [if_neg hq]
        exact length_filter_mono h xs

theorem accepts_anti (sem : Str → ℚ) (toks : List Str) (q_lower : Str)
    {θ1 θ2 : ℚ} (hθ : θ1 ≤ θ2) (rec : DiseaseRec)
    (h : acceptsRec sem θ2 toks q_lower rec = true) :
    acceptsRec sem θ1 toks q_lower rec = true := by
  simp only [acceptsRec, decide_eq_true_eq] at h ⊢
  refine le_trans ?_ h
  unfold dynThresholdOf
  by_cases hn : scoreNameOf toks q_lower rec ≥ 8 / 10
  · rw [if_pos hn, if_pos hn]
    exact min_le_min hθ (le_refl _)
  · rw [if_neg hn, if_neg hn]
    exact hθ

theorem length_rawMatches_anti (sem : Str → ℚ) (toks : List Str) (q_lower : Str)
    {θ1 θ2 : ℚ} (hθ : θ1 ≤ θ2) (db : List DiseaseRec) :
    (rawMatches sem θ2 toks q_lower db).length ≤ (rawMatches sem θ1 toks q_lower db).length := by
  unfold rawMatches
  rw [List.length_map, List.length_map]
  exact length_filter_mono (fun rec => accepts_anti sem toks q_lower hθ rec) db

/-- Unfolding of `search_matches` when the best fold lands on a
record. -/
theorem search_matches_best_some (sem : Str → ℚ) (db : List DiseaseRec) (text : Str) (θ : ℚ)
    (brec : DiseaseRec) (bscore : ℚ)
    (hb : bestFold sem (normalize_and_expand text).2
        (lowerStr (normalize_and_expand text).1) db = (some brec, bscore)) :
    search_matches sem db text θ =
      if sortDesc (rawMatches sem θ (normalize_and_expand text).2
            (lowerStr (normalize_and_expand text).1) db) = []
          ∧ matchedToksOf (normalize_and_expand text).2 brec ≠ [] then
        sortDesc (rawMatches sem θ (normalize_and_expand text).2
            (lowerStr (normalize_and_expand text).1) db)
          ++ [fallbackEntry (normalize_and_expand text).2 brec bscore]
      else
        sortDesc (rawMatches sem θ (normalize_and_expand text).2
            (lowerStr (normalize_and_expand text).1) db) := by
  simp only [search_matches, hb]

/-- Unfolding of `search_matches` when the knowledge base left the
best fold empty. -/
theorem search_matches_best_none (sem : Str → ℚ) (db : List DiseaseRec) (text : Str) (θ : ℚ)
    (bscore : ℚ)
    (hb : bestFold sem (normalize_and_expand text).2
        (lowerStr (normalize_and_expand text).1) db = (none, bscore)) :
    search_matches sem db text θ =
      sortDesc (rawMatches sem θ (normalize_and_expand text).2
        (lowerStr (normalize_and_expand text).1) db) := by
  simp only [search_matches, hb]

/-! Claim C7. -/

/-- C7 (confirmed): for a fixed semantic-score oracle, knowledge base
and query text, raising the base threshold never increases the number
of results of the match pipeline — the per-candidate dynamic threshold
is monotone in the base threshold, so the accepted set shrinks, and
the low-confidence fallback contributes at most one entry exactly when
the accepted set is empty, a condition monotone in the threshold. -/
theorem C7_threshold_monotone (sem : Str → ℚ) (db : List DiseaseRec) (text : Str)
    (θ1 θ2 : ℚ) (hθ : θ1 ≤ θ2) :
    (search_matches sem db text θ2).length ≤ (search_matches sem db text θ1).length := by
  have hlen := length_rawMatches_anti sem (normalize_and_expand text).2
    (lowerStr (normalize_and_expand text).1) hθ db
  rcases hbf : bestFold sem (normalize_and_expand text).2
      (lowerStr (normalize_and_expand text).1) db with ⟨obest, bscore⟩
  cases obest with
  | none =>
    rw [search_matches_best_none sem db text θ1 bscore hbf,
      search_matches_best_none sem db text θ2 bscore hbf,
      length_sortDesc, length_sortDesc]
    exact hlen
  | some brec =>
    rw [search_matches_best_some sem db text θ1 brec bscore hbf,
      search_matches_best_some sem db text θ2 brec bscore hbf]
    by_cases hm : matchedToksOf (normalize_and_expand text).2 brec ≠ []
    · by_cases h2 : sortDesc (rawMatches sem θ2 (normalize_and_expand text).2
          (lowerStr (normalize_and_expand text).1) db) = []
      · rw [if_pos ⟨h2, hm⟩, h2]
        by_cases h1 : sortDesc (rawMatches sem θ1 (normalize_and_expand text).2
            (lowerStr (normalize_and_expand text).1) db) = []
        · rw [if_pos ⟨h1, hm⟩, h1]
        · rw [if_neg (fun hc => h1 hc.1)]
          have hpos : 0 < (sortDesc (rawMatches sem θ1 (normalize_and_expand text).2
              (lowerStr (normalize_and_expand text).1) db)).length :=
            List.length_pos.mpr h1
          simpa using hpos
      · rw [if_neg (fun hc => h2 hc.1)]
        by_cases h1 : sortDesc (rawMatches sem θ1 (normalize_and_expand text).2
            (lowerStr (normalize_and_expand text).1) db) = []
        · exfalso
          apply h2
          rw [sortDesc_eq_nil_iff, ← List.length_eq_zero]
          rw [sortDesc_eq_nil_iff, ← List.length_eq_zero] at h1
          omega
        · rw [if_neg (fun hc => h1 hc.1), length_sortDesc, length_sortDesc]
          exact hlen
    · rw [if_neg (fun hc => hm hc.2), if_neg (fun hc => hm hc.2),
        length_sortDesc, length_sortDesc]
      exact hlen

/-- C7 witness: the monotonicity instance at concrete thresholds 3/10
and 5/10 on the C2 scenario data. -/
theorem C7_threshold_monotone_witness :
    (3 / 10 : ℚ) ≤ 5 / 10 ∧
      (search_matches semC2 dbC2 (str "cough fever") (5 / 10)).length
        ≤ (search_matches semC2 dbC2 (str "cough fever") (3 / 10)).length :=
  ⟨by norm_num,
    C7_threshold_monotone semC2 dbC2 (str "cough fever") (3 / 10) (5 / 10) (by norm_num)⟩

/-! Claim C6. -/

/-- C6 (confirmed): a candidate whose normalized label occurs as a
substring of the lowercased normalized query and whose name-overlap
score reaches 0.8 appears in the match list for every base threshold:
its dynamic threshold drops to `min θ 0.2`, which its score — at least
the name score — always clears. The accepted entry carries the
candidate's id and its rounded score. -/
theorem C6_name_bypass_confirmed (sem : Str → ℚ) (db : List DiseaseRec) (text : Str) (θ : ℚ)
    (rec : DiseaseRec) (hmem : rec ∈ db)
    (_hsub : containsSub (nameNormOf rec) (lowerStr (normalize_and_expand text).1) = true)
    (hname : scoreNameOf (normalize_and_expand text).2
        (lowerStr (normalize_and_expand text).1) rec ≥ 8 / 10) :
    ∃ m ∈ search_matches sem db text θ,
      m.disease_id = rec.disease_id ∧
        m.match_score = round4 (scoreOf sem (normalize_and_expand text).2
          (lowerStr (normalize_and_expand text).1) rec) := by
  have hacc : acceptsRec sem θ (normalize_and_expand text).2
      (lowerStr (normalize_and_expand text).1) rec = true := by
    simp only [acceptsRec, decide_eq_true_eq]
    calc dynThresholdOf θ (normalize_and_expand text).2
          (lowerStr (normalize_and_expand text).1) rec
        ≤ 2 / 10 := by
          unfold dynThresholdOf
          rw [if_pos hname]
          exact min_le_right _ _
      _ ≤ 8 / 10 := by norm_num
      _ ≤ scoreNameOf (normalize_and_expand text).2
            (lowerStr (normalize_and_expand text).1) rec := hname
      _ ≤ scoreOf sem (normalize_and_expand text).2
            (lowerStr (normalize_and_expand text).1) rec := le_max_right _ _
  have hraw : mkEntry sem (normalize_and_expand text).2
      (lowerStr (normalize_and_expand text).1) rec
      ∈ rawMatches sem θ (normalize_and_expand text).2
        (lowerStr (normalize_and_expand text).1) db :=
    List.mem_map_of_mem _ (List.mem_filter.mpr ⟨hmem, hacc⟩)
  have hsorted := (mem_sortDesc _ _).mpr hraw
  refine ⟨mkEntry sem (normalize_and_expand text).2
    (lowerStr (normalize_and_expand text).1) rec, ?_, rfl, rfl⟩
  rcases hbf : bestFold sem (normalize_and_expand text).2
      (lowerStr (normalize_and_expand text).1) db with ⟨obest, bscore⟩
  cases obest with
  | none =>
    rw [search_matches_best_none sem db text θ bscore hbf]
    exact hsorted
  | some brec =>
    rw [search_matches_best_some sem db text θ brec bscore hbf]
    by_cases hc : sortDesc (rawMatches sem θ (normalize_and_expand text).2
          (lowerStr (normalize_and_expand text).1) db) = []
        ∧ matchedToksOf (normalize_and_expand text).2 brec ≠ []
    · rw [if_pos hc]
      exact List.mem_append_left _ hsorted
    · rw [if_neg hc]
      exact hsorted

/-- C6 witness: the bypass at the concrete record `Cough`, query
`cough fever` and base threshold 9/10 (above the semantic score 0). -/
theorem C6_name_bypass_witness :
    (recC6 ∈ dbC6 ∧
      containsSub (nameNormOf recC6)
        (lowerStr (normalize_and_expand (str "cough fever")).1) = true ∧
      scoreNameOf (normalize_and_expand (str "cough fever")).2
        (lowerStr (normalize_and_expand (str "cough fever")).1) recC6 ≥ 8 / 10) ∧
    ∃ m ∈ search_matches (fun _ => 0) dbC6 (str "cough fever") (9 / 10),
      m.disease_id = recC6.disease_id ∧
        m.match_score = round4 (scoreOf (fun _ => 0)
          (normalize_and_expand (str "cough fever")).2
          (lowerStr (normalize_and_expand (str "cough fever")).1) recC6) :=
  ⟨⟨by decide, by decide, by decide⟩,
    C6_name_bypass_confirmed (fun _ => 0) dbC6 (str "cough fever") (9 / 10) recC6
      (by decide) (by decide) (by decide)⟩

/-! Claim C2. -/

/-- C2 counterexample: on the query `cough fever` with base threshold
0.6, the accepted set is empty and the record `recFeverStuff` shares
the normalized token `fever` with the query, yet no low-confidence
fallback is emitted — the result list is empty, because the
best-scoring record (`recCoughBarn`, scanned first with the equal
score 1/2) shares no symptom token itself. -/
theorem C2_counterexample :
    search_matches semC2 dbC2 (str "cough fever") (6 / 10) = [] ∧
      recFeverStuff ∈ dbC2 ∧
      matchedToksOf (normalize_and_expand (str "cough fever")).2 recFeverStuff ≠ [] := by
  refine ⟨by decide, by decide, by decide⟩

/-- C2 (corrected): the low-confidence fallback is keyed to the single
best-scoring candidate — the first score-maximal record in
knowledge-base order — and not to an arbitrary token-sharing
candidate. When the accepted set is empty, exactly one fallback entry
(for that best record, annotated in its notes) is emitted if the best
record itself shares a normalized token with the query, and nothing is
emitted otherwise, even when another candidate shares a token. -/
theorem C2_fallback_amended (sem : Str → ℚ) (db : List DiseaseRec) (text : Str) (θ : ℚ)
    (brec : DiseaseRec) (bscore : ℚ)
    (hb : bestFold sem (normalize_and_expand text).2
        (lowerStr (normalize_and_expand text).1) db = (some brec, bscore))
    (hempty : rawMatches sem θ (normalize_and_expand text).2
        (lowerStr (normalize_and_expand text).1) db = []) :
    search_matches sem db text θ =
      (if matchedToksOf (normalize_and_expand text).2 brec ≠ [] then
        [fallbackEntry (normalize_and_expand text).2 brec bscore]
      else []) := by
  rw [search_matches_best_some sem db text θ brec bscore hb, hempty]
  by_cases hm : matchedToksOf (normalize_and_expand text).2 brec ≠ []
  · rw [if_pos ⟨rfl, hm⟩, if_pos hm]
    rfl
  · rw [if_neg (fun hc => hm hc.2), if_neg hm]
    rfl

/-- C2 witness: the amended statement on the single-record base
`dbFb`, whose best record shares the token `cough` with the query, at
a threshold rejecting every record. -/
theorem C2_fallback_witness :
    (bestFold (fun _ => 1 / 2) (normalize_and_expand (str "cough fever")).2
        (lowerStr (normalize_and_expand (str "cough fever")).1) dbFb = (some recFb, 1 / 2) ∧
      rawMatches (fun _ => 1 / 2) (9 / 10) (normalize_and_expand (str "cough fever")).2
        (lowerStr (normalize_and_expand (str "cough fever")).1) dbFb = []) ∧
    search_matches (fun _ => 1 / 2) dbFb (str "cough fever") (9 / 10) =
      (if matchedToksOf (normalize_and_expand (str "cough fever")).2 recFb ≠ [] then
        [fallbackEntry (normalize_and_expand (str "cough fever")).2 recFb (1 / 2)]
      else []) :=
  ⟨⟨by decide, by decide⟩,
    C2_fallback_amended (fun _ => 1 / 2) dbFb (str "cough fever") (9 / 10) recFb (1 / 2)
      (by decide) (by decide)⟩

/-! Lemmas about the `best_match` fold. -/

theorem bm_le (g : Str → ℚ) :
    ∀ (l : List Str) (acc : Str × ℚ),
      acc.2 ≤ (l.foldl (fun a u => if g u > a.2 then (u, g u) else a) acc).2
  | [], _ => le_refl _
  | u :: l, acc => by
    rw [List.foldl_cons]
    refine le_trans ?_ (bm_le g l _)
    by_cases h : g u > acc.2
    · rw [if_pos h]
      exact le_of_lt h
    · rw [if_neg h]

theorem bm_all_le (g : Str → ℚ) :
    ∀ (l : List Str) (acc : Str × ℚ) (t : Str), t ∈ l →
      g t ≤ (l.foldl (fun a u => if g u > a.2 then (u, g u) else a) acc).2
  | [], _, t, ht => absurd ht (List.not_mem_nil t)
  | u :: l, acc, t, ht => by
    rw [List.foldl_cons]
    rcases List.mem_cons.mp ht with h | h
    · subst h
      refine le_trans ?_ (bm_le g l _)
      by_cases hgt : g t > acc.2
      · rw [if_pos hgt]
      · rw [if_neg hgt]
        exact le_of_not_lt hgt
    · exact bm_all_le g l _ t h

theorem bm_stay (g : Str → ℚ) :
    ∀ (l : List Str) (acc : Str × ℚ), (∀ t ∈ l, g t ≤ acc.2) →
      l.foldl (fun a u => if g u > a.2 then (u, g u) else a) acc = acc
  | [], _, _ => rfl
  | u :: l, acc, h => by
    rw [List.foldl_cons, if_neg (not_lt.mpr (h u (List.mem_cons_self u l)))]
    exact bm_stay g l acc fun t ht => h t (List.mem_cons_of_mem u ht)

theorem bm_find (g : Str → ℚ) :
    ∀ (l : List Str) (acc : Str × ℚ), (∃ t ∈ l, g t > acc.2) →
      acc.2 < (l.foldl (fun a u => if g u > a.2 then (u, g u) else a) acc).2 ∧
        l.find? (fun t => g t ==
            (l.foldl (fun a u => if g u > a.2 then (u, g u) else a) acc).2)
          = some ((l.foldl (fun a u => if g u > a.2 then (u, g u) else a) acc).1) := by
  intro l
  induction l with
  | nil =>
    rintro acc ⟨t, ht, -⟩
    exact absurd ht (List.not_mem_nil t)
  | cons u l ih =>
    rintro acc hex
    rw [List.foldl_cons]
    by_cases hu : g u > acc.2
    · rw [if_pos hu]
      by_cases hl : ∃ t ∈ l, g t > (u, g u).2
      · obtain ⟨h1, h2⟩ := ih (u, g u) hl
        refine ⟨lt_trans hu h1, ?_⟩
        rw [List.find?_cons_of_neg, h2]
        simp only [beq_iff_eq]
        exact ne_of_lt h1
      · push_neg at hl
        rw [bm_stay g l (u, g u) hl]
        refine ⟨hu, ?_⟩
        rw [List.find?_cons_of_pos]
        simp
    · rw [if_neg hu]
      have hex' : ∃ t ∈ l, g t > acc.2 := by
        obtain ⟨t, ht, hgt⟩ := hex
        rcases List.mem_cons.mp ht with h | h
        · subst h
          exact absurd hgt hu
        · exact ⟨t, h, hgt⟩
      obtain ⟨h1, h2⟩ := ih acc hex'
      refine ⟨h1, ?_⟩
      rw [List.find?_cons_of_neg, h2]
      simp only [beq_iff_eq]
      exact ne_of_lt (lt_of_le_of_lt (not_lt.mp hu) h1)

/-! Claim C8. -/

/-- C8 counterexample as literally stated ("every weight pair"): with
the weight pair (0.3, 2) and an L2-normalized model giving cosine -1
for the pair, every vocabulary score is -2, below the -1.0 sentinel,
so `best_match` returns `("", -1.0)` — the empty string is not the
vocabulary term of strictly-greatest combined score (that term is
`c`), and -1.0 is not its score. -/
theorem C8_counterexample :
    best_match false qrZero true embC5 (str "q") [str "c"] (3 / 10) 2 = (str "", -1) ∧
      hybrid_similarity false qrZero true embC5 (str "q") (str "c") (3 / 10) 2 = -2 ∧
      (str "") ∉ [str "c"] := by
  refine ⟨by decide, by decide, by decide⟩

/-- C8 (corrected): `best_match` performs a linear scan updating on
strictly greater scores from the sentinel `("", -1.0)`. Whenever some
vocabulary score exceeds the sentinel -1.0 — which holds for every
configuration whose scores lie in `[0, 1]`, in particular the
documented weight pairs 0.3/0.7 and 0.4/0.6 with clamped components —
it returns the greatest combined score together with the first
vocabulary term attaining it (ties resolved by iteration order,
deterministically); for weight pairs driving every score to -1.0 or
below it returns the sentinel instead. -/
theorem C8_best_match_first_max (haveFuzz : Bool) (qratio : Str → Str → ℚ)
    (haveST : Bool) (emb : Str → List ℚ) (candidate : Str) (vocabulary : List Str)
    (w_fuzzy w_sem : ℚ) (_hne : vocabulary ≠ [])
    (hgt : ∃ t ∈ vocabulary,
      hybrid_similarity haveFuzz qratio haveST emb candidate t w_fuzzy w_sem > -1) :
    (∀ t ∈ vocabulary,
        hybrid_similarity haveFuzz qratio haveST emb candidate t w_fuzzy w_sem
          ≤ (best_match haveFuzz qratio haveST emb candidate vocabulary w_fuzzy w_sem).2) ∧
      vocabulary.find? (fun t =>
          hybrid_similarity haveFuzz qratio haveST emb candidate t w_fuzzy w_sem
            == (best_match haveFuzz qratio haveST emb candidate vocabulary w_fuzzy w_sem).2)
        = some ((best_match haveFuzz qratio haveST emb candidate vocabulary w_fuzzy w_sem).1) := by
  constructor
  · intro t ht
    exact bm_all_le
      (fun u => hybrid_similarity haveFuzz qratio haveST emb candidate u w_fuzzy w_sem)
      vocabulary (str "", -1) t ht
  · exact (bm_find
      (fun u => hybrid_similarity haveFuzz qratio haveST emb candidate u w_fuzzy w_sem)
      vocabulary (str "", -1) hgt).2

/-- C8 witness: the characterization at the one-word vocabulary `x`
with the documented 0.3/0.7 weights and the degraded (exact-match,
no-model) backends, where the candidate equals the term and scores
3/10. -/
theorem C8_best_match_witness :
    ([str "x"] ≠ ([] : List Str) ∧
      ∃ t ∈ [str "x"],
        hybrid_similarity false qrZero false embOne (str "x") t (3 / 10) (7 / 10) > -1) ∧
    ((∀ t ∈ [str "x"],
        hybrid_similarity false qrZero false embOne (str "x") t (3 / 10) (7 / 10)
          ≤ (best_match false qrZero false embOne (str "x") [str "x"] (3 / 10) (7 / 10)).2) ∧
      ([str "x"]).find? (fun t =>
          hybrid_similarity false qrZero false embOne (str "x") t (3 / 10) (7 / 10)
            == (best_match false qrZero false embOne (str "x") [str "x"] (3 / 10) (7 / 10)).2)
        = some ((best_match false qrZero false embOne (str "x") [str "x"] (3 / 10) (7 / 10)).1)) :=
  ⟨⟨by decide, ⟨str "x", by decide, by decide⟩⟩,
    C8_best_match_first_max false qrZero false embOne (str "x") [str "x"] (3 / 10) (7 / 10)
      (by decide) ⟨str "x", by decide, by decide⟩⟩
